import Mathlib

/-!
Shallow embedding of the bencode decoder (Go package `bencode`, file
`bencode.go`): the four readers `ReadString`, `ReadInt`, `ReadList`,
`ReadDictionary` over a buffered byte source, together with the pieces of
the Go standard library they use (`bufio.Reader.ReadByte`, `ReadBytes`,
`Peek`, `strconv.Atoi`).  Bytes are modelled as `Nat` (ASCII codes), the
byte source as the list of remaining bytes, and fallible operations return
`Except Err`.
-/

namespace Bencode

/-- Error values a decode can produce.  `eof` is Go's `io.EOF`;
`errIntInvalid`, `errStringInvalid`, `errListInvalid`, `errDictInvalid` are
the package-level sentinel errors; `strconvMalformed` and `strconvRange`
are the two failure modes of `strconv.Atoi` (returned raw by `ReadString`);
`panicIndexOutOfRange` models the runtime panic raised by indexing an empty
slice; `outOfFuel` is an artifact of the fuel-bounded embedding of the two
mutually recursive container readers and is never produced at adequate
fuel. -/
inductive Err where
  | eof
  | errIntInvalid
  | errStringInvalid
  | errListInvalid
  | errDictInvalid
  | strconvMalformed
  | strconvRange
  | panicIndexOutOfRange
  | outOfFuel
  deriving DecidableEq

/-- Decoded bencode values, the Go `interface{}` results: `int`, `string`,
`[]interface{}` and `map[string]interface{}`. -/
inductive Bval where
  | int (i : Int)
  | str (s : List Nat)
  | list (l : List Bval)
  | dict (d : List (List Nat × Bval))

/-- Go error plumbing `x, err := call(); if err != nil { return err }`:
propagate the error unchanged, otherwise continue with the result. -/
def eseq {α β : Type} (x : Except Err α) (f : α → Except Err β) : Except Err β :=
  match x with
  | .error e => .error e
  | .ok a => f a

/-- Go `b, _ := r.ReadByte()`: the error is discarded, and at end-of-input
`ReadByte` returns the zero byte. -/
def readByteIgnoreErr : List Nat → Nat × List Nat
  | [] => (0, [])
  | b :: bs => (b, bs)

/-- Go `r.Peek(1)` with its error checked: the next byte without consuming
it, or `io.EOF` on an exhausted source. -/
def peek1 : List Nat → Except Err Nat
  | [] => .error .eof
  | c :: _ => .ok c

/-- Go `bufio.Reader.ReadBytes(delim)` as used by the decoder: on success
the returned token includes the delimiter; if the source is exhausted
before the delimiter appears the call errors with `io.EOF` (the partially
read bytes are returned alongside the error in Go, but every caller here
discards them on error). -/
def readBytesUntil (delim : Nat) : List Nat → Except Err (List Nat × List Nat)
  | [] => .error .eof
  | b :: bs =>
    if b = delim then .ok ([b], bs)
    else eseq (readBytesUntil delim bs) fun tr => .ok (b :: tr.1, tr.2)

/-- The payload loop of `ReadString`: `length` single-byte reads, each of
which surfaces `io.EOF` raw if the source is exhausted. -/
def readNBytes : Nat → List Nat → Except Err (List Nat × List Nat)
  | 0, rest => .ok ([], rest)
  | _ + 1, [] => .error .eof
  | n + 1, b :: bs => eseq (readNBytes n bs) fun ar => .ok (b :: ar.1, ar.2)

/-- Digit-accumulation loop of Go `strconv.ParseUint` (base 10): consumes
the bytes left to right, failing on any non-digit. -/
def accDigits : Nat → List Nat → Option Nat
  | acc, [] => some acc
  | acc, b :: bs =>
    if 48 ≤ b ∧ b ≤ 57 then accDigits (acc * 10 + (b - 48)) bs else none

/-- Go `strconv.ParseUint(s, 10, _)` digit phase: an empty digit span is a
syntax error, otherwise accumulate. -/
def parseUintDigits : List Nat → Option Nat
  | [] => none
  | b :: bs => accDigits 0 (b :: bs)

/-- Magnitude-and-range phase of Go `strconv.ParseInt` for a 64-bit `int`:
`ParseUint` rejects values above `2 ^ 64 - 1`, then `ParseInt` rejects a
non-negative result at or above `2 ^ 63` and a negated magnitude above
`2 ^ 63`. -/
def atoiMag (neg : Bool) (digits : List Nat) : Except Err Int :=
  match parseUintDigits digits with
  | none => .error .strconvMalformed
  | some un =>
    if 2 ^ 64 ≤ un then .error .strconvRange
    else if neg = false ∧ 2 ^ 63 ≤ un then .error .strconvRange
    else if neg = true ∧ 2 ^ 63 < un then .error .strconvRange
    else if neg then .ok (-(un : Int)) else .ok (un : Int)

/-- Go `strconv.Atoi`: optional leading `+` (byte 43) or `-` (byte 45),
then one or more decimal digits, with 64-bit range checking. -/
def Atoi (s : List Nat) : Except Err Int :=
  match s with
  | [] => .error .strconvMalformed
  | c :: rest =>
    if c = 43 then atoiMag false rest
    else if c = 45 then atoiMag true rest
    else atoiMag false (c :: rest)

/-- Go `ReadString`: read up to and including the separator `:` (byte 58),
returning the `ReadBytes` error raw on failure; `Atoi` the token minus the
separator, returning the `strconv` error raw on failure; reject a negative
length with `ErrStringInvalid`; then read exactly `length` payload bytes,
surfacing `io.EOF` raw if the payload is truncated. -/
def readString (input : List Nat) : Except Err (List Nat × List Nat) :=
  eseq (readBytesUntil 58 input) fun tr =>
  eseq (Atoi tr.1.dropLast) fun len =>
  if len < 0 then .error .errStringInvalid
  else readNBytes len.toNat tr.2

/-- Go `ReadInt`: one byte that must be `i` (byte 105, error discarded, so
end-of-input also yields `ErrIntInvalid` here); read up to and including
`e` (byte 101), returning the `ReadBytes` error raw on failure; `Atoi` the
token minus the terminator, mapping any `strconv` failure to
`ErrIntInvalid`. -/
def intResult (x : Except Err Int) (rest : List Nat) : Except Err (Int × List Nat) :=
  match x with
  | .error _ => .error .errIntInvalid
  | .ok i => .ok (i, rest)

def readInt (input : List Nat) : Except Err (Int × List Nat) :=
  let br := readByteIgnoreErr input
  if br.1 = 105 then
    eseq (readBytesUntil 101 br.2) fun tr => intResult (Atoi tr.1.dropLast) tr.2
  else .error .errIntInvalid

/-- Go map assignment `d[k] = v` on the insertion-ordered association list
modelling `map[string]interface{}`: replace the binding if the key is
present, append otherwise. -/
def mapInsert (k : List Nat) (v : Bval) : List (List Nat × Bval) → List (List Nat × Bval)
  | [] => [(k, v)]
  | (k2, v2) :: rest =>
    if k2 = k then (k2, v) :: rest else (k2, v2) :: mapInsert k v rest

mutual

/-- Go `ReadList`: one byte that must be `l` (byte 108, error discarded),
then the accumulation loop.  `fuel` bounds the recursion depth of the
embedding; the Go loop recurses once per consumed value. -/
def readList : Nat → List Nat → Except Err (List Bval × List Nat)
  | 0, _ => .error .outOfFuel
  | fuel + 1, input =>
    let br := readByteIgnoreErr input
    if br.1 = 108 then readListLoop fuel [] br.2
    else .error .errListInvalid

/-- The `for` loop of Go `ReadList`: `Peek(1)` with its error checked and
propagated raw; `e` (byte 101) is consumed and ends the list; otherwise
dispatch on the peeked byte (`l` list, `d` dictionary, `i` integer,
default string), fail with the nested reader's error unchanged, or append
the value and continue. -/
def readListLoop : Nat → List Bval → List Nat → Except Err (List Bval × List Nat)
  | 0, _, _ => .error .outOfFuel
  | fuel + 1, acc, input =>
    match input with
    | [] => .error .eof
    | b :: rest =>
      if b = 101 then .ok (acc, rest)
      else if b = 108 then
        eseq (readList fuel (b :: rest)) fun vr =>
          readListLoop fuel (acc ++ [Bval.list vr.1]) vr.2
      else if b = 100 then
        eseq (readDictionary fuel (b :: rest)) fun vr =>
          readListLoop fuel (acc ++ [Bval.dict vr.1]) vr.2
      else if b = 105 then
        eseq (readInt (b :: rest)) fun vr =>
          readListLoop fuel (acc ++ [Bval.int vr.1]) vr.2
      else
        eseq (readString (b :: rest)) fun vr =>
          readListLoop fuel (acc ++ [Bval.str vr.1]) vr.2

/-- Go `ReadDictionary`: one byte that must be `d` (byte 100, error
discarded), then the key/value loop. -/
def readDictionary : Nat → List Nat → Except Err (List (List Nat × Bval) × List Nat)
  | 0, _ => .error .outOfFuel
  | fuel + 1, input =>
    let br := readByteIgnoreErr input
    if br.1 = 100 then readDictLoop fuel [] br.2
    else .error .errDictInvalid

/-- The `for` loop of Go `ReadDictionary`.  The first `Peek(1)` of each
iteration does NOT check its error: at end-of-input Go's `Peek` returns an
empty slice together with `io.EOF`, and the unconditional `next[0]` then
panics with an index-out-of-range runtime error, modelled as
`panicIndexOutOfRange`.  Otherwise: `e` ends the dictionary; a key is read
via `ReadString` (failure propagated raw); the second `Peek(1)` DOES check
its error; the value is dispatched on the peeked byte (`d` dictionary, `i`
integer, `l` list, default string — an `e` in value position falls to the
string reader, the `case e` branch being commented out in the source);
nested failure propagates raw, success inserts the pair and continues. -/
def readDictLoop : Nat → List (List Nat × Bval) → List Nat →
    Except Err (List (List Nat × Bval) × List Nat)
  | 0, _, _ => .error .outOfFuel
  | fuel + 1, acc, input =>
    match input with
    | [] => .error .panicIndexOutOfRange
    | b :: rest =>
      if b = 101 then .ok (acc, rest)
      else
        eseq (readString (b :: rest)) fun kr =>
        eseq (peek1 kr.2) fun c =>
        if c = 100 then
          eseq (readDictionary fuel kr.2) fun vr =>
            readDictLoop fuel (mapInsert kr.1 (Bval.dict vr.1) acc) vr.2
        else if c = 105 then
          eseq (readInt kr.2) fun vr =>
            readDictLoop fuel (mapInsert kr.1 (Bval.int vr.1) acc) vr.2
        else if c = 108 then
          eseq (readList fuel kr.2) fun vr =>
            readDictLoop fuel (mapInsert kr.1 (Bval.list vr.1) acc) vr.2
        else
          eseq (readString kr.2) fun vr =>
            readDictLoop fuel (mapInsert kr.1 (Bval.str vr.1) acc) vr.2

end

/-!
Decimal rendering of numbers, used to state the claims that quantify over
all integers or all lengths: `natToDec n` is the ASCII byte list of the
decimal digits of `n`, `intToDec i` prepends the `-` sign byte for
negative `i`.  The auxiliary fuel makes the definitions structurally
recursive so that they evaluate by `rfl`.
-/

def natToDecAux : Nat → Nat → List Nat
  | 0, _ => []
  | fuel + 1, n =>
    if n < 10 then [48 + n] else natToDecAux fuel (n / 10) ++ [48 + n % 10]

def natToDec (n : Nat) : List Nat := natToDecAux (n + 1) n

def intToDec (i : Int) : List Nat :=
  if i < 0 then 45 :: natToDec i.natAbs else natToDec i.toNat

/-!
Basic unfolding equations, all definitional.
-/

lemma eseq_ok {α β : Type} (a : α) (f : α → Except Err β) : eseq (.ok a) f = f a := rfl

lemma eseq_error {α β : Type} (e : Err) (f : α → Except Err β) :
    eseq (.error e) f = .error e := rfl

lemma readByteIgnoreErr_cons (b : Nat) (bs : List Nat) :
    readByteIgnoreErr (b :: bs) = (b, bs) := rfl

lemma intResult_ok (i : Int) (rest : List Nat) : intResult (.ok i) rest = .ok (i, rest) := rfl

lemma intResult_error (e : Err) (rest : List Nat) :
    intResult (.error e) rest = .error .errIntInvalid := rfl

lemma readBytesUntil_cons (d b : Nat) (bs : List Nat) :
    readBytesUntil d (b :: bs) =
      (if b = d then .ok ([b], bs)
       else eseq (readBytesUntil d bs) fun tr => .ok (b :: tr.1, tr.2)) := rfl

lemma readNBytes_zero (l : List Nat) : readNBytes 0 l = .ok ([], l) := rfl

lemma readNBytes_succ (n b : Nat) (bs : List Nat) :
    readNBytes (n + 1) (b :: bs) =
      eseq (readNBytes n bs) fun ar => .ok (b :: ar.1, ar.2) := rfl

lemma accDigits_append (xs : List Nat) :
    ∀ (ys : List Nat) (acc : Nat),
      accDigits acc (xs ++ ys) = (accDigits acc xs).bind fun a => accDigits a ys := by
  induction xs with
  | nil => intro ys acc; simp [accDigits]
  | cons b bs ih =>
    intro ys acc
    simp only [List.cons_append, accDigits]
    by_cases hb : 48 ≤ b ∧ b ≤ 57
    · rw [if_pos hb, if_pos hb]
      exact ih ys _
    · rw [if_neg hb, if_neg hb, Option.none_bind]

lemma natToDecAux_spec :
    ∀ (fuel n : Nat), n < fuel → ∀ acc : Nat,
      accDigits acc (natToDecAux fuel n) =
        some (acc * 10 ^ (natToDecAux fuel n).length + n) := by
  intro fuel
  induction fuel with
  | zero => intro n h; omega
  | succ fuel ih =>
    intro n h acc
    by_cases h10 : n < 10
    · simp only [natToDecAux, if_pos h10, accDigits]
      rw [if_pos (by omega)]
      simp only [accDigits, List.length_cons, List.length_nil, pow_one]
      congr 1
      omega
    · simp only [natToDecAux, if_neg h10]
      rw [accDigits_append, ih (n / 10) (by omega) acc, Option.some_bind]
      simp only [accDigits]
      rw [if_pos (by omega)]
      simp only [accDigits, List.length_append, List.length_cons, List.length_nil]
      congr 1
      rw [pow_succ, Nat.add_mul, Nat.mul_assoc, Nat.add_assoc]
      congr 1
      omega

lemma natToDecAux_digits :
    ∀ (fuel n : Nat), n < fuel → ∀ b ∈ natToDecAux fuel n, 48 ≤ b ∧ b ≤ 57 := by
  intro fuel
  induction fuel with
  | zero => intro n h; omega
  | succ fuel ih =>
    intro n h b hb
    by_cases h10 : n < 10
    · simp only [natToDecAux, if_pos h10, List.mem_singleton] at hb
      omega
    · simp only [natToDecAux, if_neg h10, List.mem_append, List.mem_singleton] at hb
      rcases hb with hb | hb
      · exact ih (n / 10) (by omega) b hb
      · omega

lemma natToDec_digits (n : Nat) : ∀ b ∈ natToDec n, 48 ≤ b ∧ b ≤ 57 :=
  natToDecAux_digits (n + 1) n (by omega)

lemma natToDec_ne_nil (n : Nat) : natToDec n ≠ [] := by
  unfold natToDec natToDecAux
  by_cases h10 : n < 10
  · simp [h10]
  · simp [h10]

lemma accDigits_natToDec (n acc : Nat) :
    accDigits acc (natToDec n) = some (acc * 10 ^ (natToDec n).length + n) :=
  natToDecAux_spec (n + 1) n (by omega) acc

lemma parseUintDigits_natToDec (n : Nat) : parseUintDigits (natToDec n) = some n := by
  obtain ⟨c, rest, hc⟩ := List.exists_cons_of_ne_nil (natToDec_ne_nil n)
  rw [hc]
  simp only [parseUintDigits]
  rw [← hc, accDigits_natToDec]
  simp

/-- Repeated `0` digits accumulate to a scaled value; in particular from
accumulator zero they parse to zero. -/
lemma accDigits_replicate_zero :
    ∀ (m acc : Nat), accDigits acc (List.replicate m 48) = some (acc * 10 ^ m) := by
  intro m
  induction m with
  | zero => intro acc; simp [accDigits]
  | succ m ih =>
    intro acc
    simp only [List.replicate, accDigits]
    rw [if_pos (by omega), ih]
    congr 1
    rw [pow_succ]
    ring_nf

lemma atoiMag_pos (digits : List Nat) (n : Nat)
    (hp : parseUintDigits digits = some n) (h : n < 2 ^ 63) :
    atoiMag false digits = .ok (n : Int) := by
  simp only [atoiMag, hp]
  rw [if_neg (by omega), if_neg (by simp; omega), if_neg (by simp)]
  simp

lemma atoiMag_negv (digits : List Nat) (n : Nat)
    (hp : parseUintDigits digits = some n) (h : n ≤ 2 ^ 63) :
    atoiMag true digits = .ok (-(n : Int)) := by
  simp only [atoiMag, hp]
  rw [if_neg (by omega), if_neg (by simp), if_neg (by simp; omega)]
  simp

/-- Zero-padded digit spans parse to the numeric value of the unpadded
digits: `Atoi` on `0 ^ k ++ digits of n` is `n`. -/
lemma Atoi_padded (k n : Nat) (h : n < 2 ^ 63) :
    Atoi (List.replicate k 48 ++ natToDec n) = .ok (n : Int) := by
  cases k with
  | zero =>
    obtain ⟨c, rest, hc⟩ := List.exists_cons_of_ne_nil (natToDec_ne_nil n)
    have hdig : 48 ≤ c ∧ c ≤ 57 := natToDec_digits n c (by rw [hc]; simp)
    simp only [List.replicate, List.nil_append]
    rw [hc]
    simp only [Atoi]
    rw [if_neg (by omega), if_neg (by omega), ← hc]
    exact atoiMag_pos _ n (parseUintDigits_natToDec n) h
  | succ k =>
    simp only [List.replicate, List.cons_append, Atoi]
    rw [if_neg (by omega), if_neg (by omega)]
    simp only [atoiMag, parseUintDigits]
    rw [show (48 :: (List.replicate k 48 ++ natToDec n)) =
          (List.replicate (k + 1) 48 ++ natToDec n) by simp [List.replicate],
        accDigits_append, accDigits_replicate_zero, Option.some_bind,
        Nat.zero_mul, accDigits_natToDec]
    simp only [Nat.zero_mul, Nat.zero_add]
    rw [if_neg (by omega), if_neg (by simp; omega), if_neg (by simp)]
    simp

lemma Atoi_natToDec (n : Nat) (h : n < 2 ^ 63) : Atoi (natToDec n) = .ok (n : Int) := by
  have := Atoi_padded 0 n h
  simpa using this

lemma Atoi_intToDec (i : Int) (h1 : -(2 ^ 63) ≤ i) (h2 : i < 2 ^ 63) :
    Atoi (intToDec i) = .ok i := by
  by_cases hneg : i < 0
  · simp only [intToDec, if_pos hneg, Atoi]
    rw [if_pos trivial]
    rw [atoiMag_negv _ i.natAbs (parseUintDigits_natToDec _) (by omega)]
    rw [Int.ofNat_natAbs_of_nonpos (by omega), neg_neg]
    rw [if_neg (by omega)]
  · simp only [intToDec, if_neg hneg]
    rw [Atoi_natToDec i.toNat (by omega)]
    congr 1
    omega

/-- One-step unfolding of `readInt` on a non-empty source. -/
lemma readInt_eq (b : Nat) (bs : List Nat) :
    readInt (b :: bs) =
      (if b = 105 then
        eseq (readBytesUntil 101 bs) fun tr => intResult (Atoi tr.1.dropLast) tr.2
      else .error .errIntInvalid) := rfl

lemma readBytesUntil_found :
    ∀ (xs : List Nat) (d : Nat) (rest : List Nat), d ∉ xs →
      readBytesUntil d (xs ++ d :: rest) = .ok (xs ++ [d], rest) := by
  intro xs
  induction xs with
  | nil =>
    intro d rest _
    simp [readBytesUntil]
  | cons x xs ih =>
    intro d rest hd
    have h1 : ¬x = d := fun h => hd (by simp [h])
    have h2 : d ∉ xs := fun h => hd (List.mem_cons_of_mem _ h)
    simp only [List.cons_append, readBytesUntil, List.append_eq]
    rw [if_neg h1, ih d rest h2]
    rfl

lemma readNBytes_exact :
    ∀ (n : Nat) (l : List Nat), n ≤ l.length →
      readNBytes n l = .ok (l.take n, l.drop n) := by
  intro n
  induction n with
  | zero => intro l h; simp [readNBytes]
  | succ n ih =>
    intro l h
    cases l with
    | nil => simp at h
    | cons b bs =>
      simp only [List.length_cons] at h
      simp only [readNBytes]
      rw [ih bs (by omega)]
      rfl

lemma readNBytes_short :
    ∀ (n : Nat) (l : List Nat), l.length < n → readNBytes n l = .error .eof := by
  intro n
  induction n with
  | zero => intro l h; omega
  | succ n ih =>
    intro l h
    cases l with
    | nil => rfl
    | cons b bs =>
      simp only [List.length_cons] at h
      simp only [readNBytes]
      rw [ih bs (by omega)]
      rfl

/-!
Unfolding equations for the fuel-indexed container readers and the
remaining byte-source primitives, all definitional.
-/

lemma readByteIgnoreErr_nil : readByteIgnoreErr [] = (0, []) := rfl

lemma peek1_cons (c : Nat) (cs : List Nat) : peek1 (c :: cs) = .ok c := rfl

lemma peek1_nil : peek1 [] = .error .eof := rfl

lemma readList_zero (input : List Nat) : readList 0 input = .error .outOfFuel := rfl

lemma readList_succ (fuel : Nat) (input : List Nat) :
    readList (fuel + 1) input =
      (if (readByteIgnoreErr input).1 = 108 then
        readListLoop fuel [] (readByteIgnoreErr input).2
      else .error .errListInvalid) := rfl

lemma readListLoop_zero (acc : List Bval) (input : List Nat) :
    readListLoop 0 acc input = .error .outOfFuel := rfl

lemma readListLoop_nil (fuel : Nat) (acc : List Bval) :
    readListLoop (fuel + 1) acc [] = .error .eof := rfl

lemma readListLoop_cons (fuel : Nat) (acc : List Bval) (b : Nat) (rest : List Nat) :
    readListLoop (fuel + 1) acc (b :: rest) =
      (if b = 101 then .ok (acc, rest)
      else if b = 108 then
        eseq (readList fuel (b :: rest)) fun vr =>
          readListLoop fuel (acc ++ [Bval.list vr.1]) vr.2
      else if b = 100 then
        eseq (readDictionary fuel (b :: rest)) fun vr =>
          readListLoop fuel (acc ++ [Bval.dict vr.1]) vr.2
      else if b = 105 then
        eseq (readInt (b :: rest)) fun vr =>
          readListLoop fuel (acc ++ [Bval.int vr.1]) vr.2
      else
        eseq (readString (b :: rest)) fun vr =>
          readListLoop fuel (acc ++ [Bval.str vr.1]) vr.2) := rfl

lemma readDictionary_zero (input : List Nat) :
    readDictionary 0 input = .error .outOfFuel := rfl

lemma readDictionary_succ (fuel : Nat) (input : List Nat) :
    readDictionary (fuel + 1) input =
      (if (readByteIgnoreErr input).1 = 100 then
        readDictLoop fuel [] (readByteIgnoreErr input).2
      else .error .errDictInvalid) := rfl

lemma readDictLoop_zero (acc : List (List Nat × Bval)) (input : List Nat) :
    readDictLoop 0 acc input = .error .outOfFuel := rfl

lemma readDictLoop_nil (fuel : Nat) (acc : List (List Nat × Bval)) :
    readDictLoop (fuel + 1) acc [] = .error .panicIndexOutOfRange := rfl

lemma readDictLoop_cons (fuel : Nat) (acc : List (List Nat × Bval)) (b : Nat)
    (rest : List Nat) :
    readDictLoop (fuel + 1) acc (b :: rest) =
      (if b = 101 then .ok (acc, rest)
      else
        eseq (readString (b :: rest)) fun kr =>
        eseq (peek1 kr.2) fun c =>
        if c = 100 then
          eseq (readDictionary fuel kr.2) fun vr =>
            readDictLoop fuel (mapInsert kr.1 (Bval.dict vr.1) acc) vr.2
        else if c = 105 then
          eseq (readInt kr.2) fun vr =>
            readDictLoop fuel (mapInsert kr.1 (Bval.int vr.1) acc) vr.2
        else if c = 108 then
          eseq (readList fuel kr.2) fun vr =>
            readDictLoop fuel (mapInsert kr.1 (Bval.list vr.1) acc) vr.2
        else
          eseq (readString kr.2) fun vr =>
            readDictLoop fuel (mapInsert kr.1 (Bval.str vr.1) acc) vr.2) := rfl

/-!
Frame lemmas: each successful read only consumes bytes from the front of
the source, so the returned rest is a suffix of the input.
-/

lemma readBytesUntil_split :
    ∀ (d : Nat) (input tok rest : List Nat),
      readBytesUntil d input = .ok (tok, rest) → input = tok ++ rest := by
  intro d input
  induction input with
  | nil =>
    intro tok rest h
    simp [readBytesUntil] at h
  | cons b bs ih =>
    intro tok rest h
    simp only [readBytesUntil] at h
    by_cases hb : b = d
    · rw [if_pos hb] at h
      simp only [Except.ok.injEq, Prod.mk.injEq] at h
      obtain ⟨h1, h2⟩ := h
      subst h1
      subst h2
      simp
    · rw [if_neg hb] at h
      cases hcall : readBytesUntil d bs with
      | error e =>
        rw [hcall, eseq_error] at h
        simp at h
      | ok tr =>
        rw [hcall, eseq_ok] at h
        simp only [Except.ok.injEq, Prod.mk.injEq] at h
        obtain ⟨h1, h2⟩ := h
        subst h1
        subst h2
        have := ih tr.1 tr.2 (by rw [hcall])
        simp [this]

lemma readNBytes_split :
    ∀ (n : Nat) (l s rest : List Nat),
      readNBytes n l = .ok (s, rest) → l = s ++ rest := by
  intro n
  induction n with
  | zero =>
    intro l s rest h
    simp only [readNBytes, Except.ok.injEq, Prod.mk.injEq] at h
    obtain ⟨h1, h2⟩ := h
    subst h1
    subst h2
    simp
  | succ n ih =>
    intro l s rest h
    cases l with
    | nil => simp [readNBytes] at h
    | cons b bs =>
      simp only [readNBytes] at h
      cases hcall : readNBytes n bs with
      | error e =>
        rw [hcall, eseq_error] at h
        simp at h
      | ok ar =>
        rw [hcall, eseq_ok] at h
        simp only [Except.ok.injEq, Prod.mk.injEq] at h
        obtain ⟨h1, h2⟩ := h
        subst h1
        subst h2
        have := ih bs ar.1 ar.2 (by rw [hcall])
        simp [this]

lemma readString_suffix (input s rest : List Nat)
    (h : readString input = .ok (s, rest)) : rest.IsSuffix input := by
  simp only [readString] at h
  cases h1 : readBytesUntil 58 input with
  | error e =>
    rw [h1, eseq_error] at h
    simp at h
  | ok tr =>
    rw [h1, eseq_ok] at h
    have hs1 := readBytesUntil_split 58 input tr.1 tr.2 (by rw [h1])
    cases h2 : Atoi tr.1.dropLast with
    | error e =>
      rw [h2, eseq_error] at h
      simp at h
    | ok len =>
      rw [h2, eseq_ok] at h
      by_cases hlen : len < 0
      · rw [if_pos hlen] at h
        simp at h
      · rw [if_neg hlen] at h
        have hs2 := readNBytes_split len.toNat tr.2 s rest h
        refine ⟨tr.1 ++ s, ?_⟩
        rw [hs1, hs2]
        simp

lemma readInt_suffix (input : List Nat) (i : Int) (rest : List Nat)
    (h : readInt input = .ok (i, rest)) : rest.IsSuffix input := by
  cases input with
  | nil =>
    rw [show readInt [] = Except.error Err.errIntInvalid from rfl] at h
    simp at h
  | cons b bs =>
    rw [readInt_eq] at h
    by_cases hb : b = 105
    · rw [if_pos hb] at h
      cases h1 : readBytesUntil 101 bs with
      | error e =>
        rw [h1, eseq_error] at h
        simp at h
      | ok tr =>
        rw [h1, eseq_ok] at h
        have hs1 := readBytesUntil_split 101 bs tr.1 tr.2 (by rw [h1])
        cases h2 : Atoi tr.1.dropLast with
        | error e =>
          rw [h2, intResult_error] at h
          simp at h
        | ok j =>
          rw [h2, intResult_ok] at h
          simp only [Except.ok.injEq, Prod.mk.injEq] at h
          obtain ⟨hj, hrest⟩ := h
          subst hrest
          refine ⟨b :: tr.1, ?_⟩
          rw [hs1]
          simp
    · rw [if_neg hb] at h
      simp at h

lemma containers_suffix :
    ∀ fuel : Nat,
      (∀ (input : List Nat) (r : List Bval × List Nat),
          readList fuel input = .ok r → r.2.IsSuffix input) ∧
      (∀ (acc : List Bval) (input : List Nat) (r : List Bval × List Nat),
          readListLoop fuel acc input = .ok r → r.2.IsSuffix input) ∧
      (∀ (input : List Nat) (r : List (List Nat × Bval) × List Nat),
          readDictionary fuel input = .ok r → r.2.IsSuffix input) ∧
      (∀ (acc : List (List Nat × Bval)) (input : List Nat)
          (r : List (List Nat × Bval) × List Nat),
          readDictLoop fuel acc input = .ok r → r.2.IsSuffix input) := by
  intro fuel
  induction fuel with
  | zero =>
    refine ⟨fun input r h => ?_, fun acc input r h => ?_,
            fun input r h => ?_, fun acc input r h => ?_⟩
    · rw [readList_zero] at h
      simp at h
    · rw [readListLoop_zero] at h
      simp at h
    · rw [readDictionary_zero] at h
      simp at h
    · rw [readDictLoop_zero] at h
      simp at h
  | succ fuel ih =>
    obtain ⟨ihL, ihLL, ihD, ihDL⟩ := ih
    refine ⟨fun input r h => ?_, fun acc input r h => ?_,
            fun input r h => ?_, fun acc input r h => ?_⟩
    · cases input with
      | nil =>
        simp only [readList_succ, readByteIgnoreErr_nil] at h
        simp at h
      | cons b bs =>
        simp only [readList_succ, readByteIgnoreErr_cons] at h
        by_cases hb : b = 108
        · rw [if_pos hb] at h
          exact (ihLL [] bs r h).trans (List.suffix_cons b bs)
        · rw [if_neg hb] at h
          simp at h
    · cases input with
      | nil =>
        rw [readListLoop_nil] at h
        simp at h
      | cons b bs =>
        rw [readListLoop_cons] at h
        by_cases he : b = 101
        · rw [if_pos he] at h
          simp only [Except.ok.injEq] at h
          subst h
          exact List.suffix_cons b bs
        · rw [if_neg he] at h
          by_cases hl : b = 108
          · rw [if_pos hl] at h
            cases hcall : readList fuel (b :: bs) with
            | error e =>
              rw [hcall, eseq_error] at h
              simp at h
            | ok vr =>
              rw [hcall, eseq_ok] at h
              exact (ihLL _ vr.2 r h).trans (ihL (b :: bs) vr (by rw [hcall]))
          · rw [if_neg hl] at h
            by_cases hd : b = 100
            · rw [if_pos hd] at h
              cases hcall : readDictionary fuel (b :: bs) with
              | error e =>
                rw [hcall, eseq_error] at h
                simp at h
              | ok vr =>
                rw [hcall, eseq_ok] at h
                exact (ihLL _ vr.2 r h).trans (ihD (b :: bs) vr (by rw [hcall]))
            · rw [if_neg hd] at h
              by_cases hi : b = 105
              · rw [if_pos hi] at h
                cases hcall : readInt (b :: bs) with
                | error e =>
                  rw [hcall, eseq_error] at h
                  simp at h
                | ok vr =>
                  rw [hcall, eseq_ok] at h
                  exact (ihLL _ vr.2 r h).trans
                    (readInt_suffix (b :: bs) vr.1 vr.2 (by rw [hcall]))
              · rw [if_neg hi] at h
                cases hcall : readString (b :: bs) with
                | error e =>
                  rw [hcall, eseq_error] at h
                  simp at h
                | ok vr =>
                  rw [hcall, eseq_ok] at h
                  exact (ihLL _ vr.2 r h).trans
                    (readString_suffix (b :: bs) vr.1 vr.2 (by rw [hcall]))
    · cases input with
      | nil =>
        simp only [readDictionary_succ, readByteIgnoreErr_nil] at h
        simp at h
      | cons b bs =>
        simp only [readDictionary_succ, readByteIgnoreErr_cons] at h
        by_cases hb : b = 100
        · rw [if_pos hb] at h
          exact (ihDL [] bs r h).trans (List.suffix_cons b bs)
        · rw [if_neg hb] at h
          simp at h
    · cases input with
      | nil =>
        rw [readDictLoop_nil] at h
        simp at h
      | cons b bs =>
        rw [readDictLoop_cons] at h
        by_cases he : b = 101
        · rw [if_pos he] at h
          simp only [Except.ok.injEq] at h
          subst h
          exact List.suffix_cons b bs
        · rw [if_neg he] at h
          cases hk : readString (b :: bs) with
          | error e =>
            rw [hk, eseq_error] at h
            simp at h
          | ok kr =>
            rw [hk, eseq_ok] at h
            have sk : kr.2.IsSuffix (b :: bs) :=
              readString_suffix (b :: bs) kr.1 kr.2 (by rw [hk])
            cases hk2 : kr.2 with
            | nil =>
              rw [hk2] at h
              simp [peek1, eseq_error] at h
            | cons c rest2 =>
              rw [hk2] at h
              rw [hk2] at sk
              rw [peek1_cons, eseq_ok] at h
              by_cases hc : c = 100
              · rw [if_pos hc] at h
                cases hcall : readDictionary fuel (c :: rest2) with
                | error e =>
                  rw [hcall, eseq_error] at h
                  simp at h
                | ok vr =>
                  rw [hcall, eseq_ok] at h
                  exact (ihDL _ vr.2 r h).trans
                    ((ihD (c :: rest2) vr (by rw [hcall])).trans sk)
              · rw [if_neg hc] at h
                by_cases hi : c = 105
                · rw [if_pos hi] at h
                  cases hcall : readInt (c :: rest2) with
                  | error e =>
                    rw [hcall, eseq_error] at h
                    simp at h
                  | ok vr =>
                    rw [hcall, eseq_ok] at h
                    exact (ihDL _ vr.2 r h).trans
                      ((readInt_suffix (c :: rest2) vr.1 vr.2 (by rw [hcall])).trans sk)
                · rw [if_neg hi] at h
                  by_cases hl : c = 108
                  · rw [if_pos hl] at h
                    cases hcall : readList fuel (c :: rest2) with
                    | error e =>
                      rw [hcall, eseq_error] at h
                      simp at h
                    | ok vr =>
                      rw [hcall, eseq_ok] at h
                      exact (ihDL _ vr.2 r h).trans
                        ((ihL (c :: rest2) vr (by rw [hcall])).trans sk)
                  · rw [if_neg hl] at h
                    cases hcall : readString (c :: rest2) with
                    | error e =>
                      rw [hcall, eseq_error] at h
                      simp at h
                    | ok vr =>
                      rw [hcall, eseq_ok] at h
                      exact (ihDL _ vr.2 r h).trans
                        ((readString_suffix (c :: rest2) vr.1 vr.2 (by rw [hcall])).trans sk)

/-!
Exact consumption: a successful read determines a nonempty consumed
prefix; the source splits as that prefix followed by the returned rest,
and reading the same prefix followed by ANY other bytes yields the same
value and leaves exactly those bytes.  This rules out over- and
under-consumption: the reader's behaviour depends only on the value's own
bytes, and it stops immediately after them.
-/

lemma readBytesUntil_tok_ne_nil :
    ∀ (d : Nat) (input tok rest : List Nat),
      readBytesUntil d input = .ok (tok, rest) → tok ≠ [] := by
  intro d input tok rest h
  cases input with
  | nil => simp [readBytesUntil] at h
  | cons b bs =>
    rw [readBytesUntil_cons] at h
    by_cases hb : b = d
    · rw [if_pos hb] at h
      simp only [Except.ok.injEq, Prod.mk.injEq] at h
      obtain ⟨h1, h2⟩ := h
      subst h1
      simp
    · rw [if_neg hb] at h
      cases hcall : readBytesUntil d bs with
      | error e =>
        rw [hcall, eseq_error] at h
        simp at h
      | ok tr =>
        rw [hcall, eseq_ok] at h
        simp only [Except.ok.injEq, Prod.mk.injEq] at h
        obtain ⟨h1, h2⟩ := h
        subst h1
        simp

lemma readBytesUntil_ext :
    ∀ (d : Nat) (input tok rest : List Nat),
      readBytesUntil d input = .ok (tok, rest) →
      ∀ ext, readBytesUntil d (tok ++ ext) = .ok (tok, ext) := by
  intro d input
  induction input with
  | nil =>
    intro tok rest h
    simp [readBytesUntil] at h
  | cons b bs ih =>
    intro tok rest h
    rw [readBytesUntil_cons] at h
    by_cases hb : b = d
    · rw [if_pos hb] at h
      simp only [Except.ok.injEq, Prod.mk.injEq] at h
      obtain ⟨h1, h2⟩ := h
      subst h1
      intro ext
      simp only [List.cons_append, List.nil_append]
      rw [readBytesUntil_cons, if_pos hb]
    · rw [if_neg hb] at h
      cases hcall : readBytesUntil d bs with
      | error e =>
        rw [hcall, eseq_error] at h
        simp at h
      | ok tr =>
        rw [hcall, eseq_ok] at h
        simp only [Except.ok.injEq, Prod.mk.injEq] at h
        obtain ⟨h1, h2⟩ := h
        subst h1
        intro ext
        simp only [List.cons_append]
        rw [readBytesUntil_cons, if_neg hb, ih tr.1 tr.2 (by rw [hcall]) ext, eseq_ok]

lemma readNBytes_ext :
    ∀ (n : Nat) (l s rest : List Nat),
      readNBytes n l = .ok (s, rest) → ∀ ext, readNBytes n (s ++ ext) = .ok (s, ext) := by
  intro n
  induction n with
  | zero =>
    intro l s rest h
    rw [readNBytes_zero] at h
    simp only [Except.ok.injEq, Prod.mk.injEq] at h
    obtain ⟨h1, h2⟩ := h
    subst h1
    intro ext
    rw [List.nil_append, readNBytes_zero]
  | succ n ih =>
    intro l s rest h
    cases l with
    | nil => simp [readNBytes] at h
    | cons b bs =>
      rw [readNBytes_succ] at h
      cases hcall : readNBytes n bs with
      | error e =>
        rw [hcall, eseq_error] at h
        simp at h
      | ok ar =>
        rw [hcall, eseq_ok] at h
        simp only [Except.ok.injEq, Prod.mk.injEq] at h
        obtain ⟨h1, h2⟩ := h
        subst h1
        intro ext
        simp only [List.cons_append]
        rw [readNBytes_succ, ih bs ar.1 ar.2 (by rw [hcall]) ext, eseq_ok]

lemma readString_exact (input s rest : List Nat)
    (h : readString input = .ok (s, rest)) :
    ∃ consumed, consumed ≠ [] ∧ input = consumed ++ rest ∧
      ∀ ext, readString (consumed ++ ext) = .ok (s, ext) := by
  simp only [readString] at h
  cases h1 : readBytesUntil 58 input with
  | error e =>
    rw [h1, eseq_error] at h
    simp at h
  | ok tr =>
    rw [h1, eseq_ok] at h
    cases h2 : Atoi tr.1.dropLast with
    | error e =>
      rw [h2, eseq_error] at h
      simp at h
    | ok len =>
      rw [h2, eseq_ok] at h
      by_cases hlen : len < 0
      · rw [if_pos hlen] at h
        simp at h
      · rw [if_neg hlen] at h
        have hsplit1 := readBytesUntil_split 58 input tr.1 tr.2 (by rw [h1])
        have hsplit2 := readNBytes_split len.toNat tr.2 s rest h
        have htok := readBytesUntil_tok_ne_nil 58 input tr.1 tr.2 (by rw [h1])
        refine ⟨tr.1 ++ s, ?_, ?_, ?_⟩
        · simp [htok]
        · rw [hsplit1, hsplit2, List.append_assoc]
        · intro ext
          simp only [readString]
          rw [List.append_assoc, readBytesUntil_ext 58 input tr.1 tr.2 (by rw [h1]) (s ++ ext)]
          simp only [eseq_ok]
          rw [h2]
          simp only [eseq_ok]
          rw [if_neg hlen]
          exact readNBytes_ext len.toNat tr.2 s rest h ext

lemma readInt_exact (input : List Nat) (i : Int) (rest : List Nat)
    (h : readInt input = .ok (i, rest)) :
    ∃ consumed, consumed ≠ [] ∧ input = consumed ++ rest ∧
      ∀ ext, readInt (consumed ++ ext) = .ok (i, ext) := by
  cases input with
  | nil =>
    rw [show readInt [] = Except.error Err.errIntInvalid from rfl] at h
    simp at h
  | cons b bs =>
    rw [readInt_eq] at h
    by_cases hb : b = 105
    · rw [if_pos hb] at h
      cases h1 : readBytesUntil 101 bs with
      | error e =>
        rw [h1, eseq_error] at h
        simp at h
      | ok tr =>
        rw [h1, eseq_ok] at h
        cases h2 : Atoi tr.1.dropLast with
        | error e =>
          rw [h2, intResult_error] at h
          simp at h
        | ok j =>
          rw [h2, intResult_ok] at h
          simp only [Except.ok.injEq, Prod.mk.injEq] at h
          obtain ⟨hj, hrest⟩ := h
          subst hj
          subst hrest
          have hsplit := readBytesUntil_split 101 bs tr.1 tr.2 (by rw [h1])
          refine ⟨b :: tr.1, by simp, ?_, ?_⟩
          · rw [hsplit]
            simp
          · intro ext
            simp only [List.cons_append]
            rw [readInt_eq, if_pos hb, readBytesUntil_ext 101 bs tr.1 tr.2 (by rw [h1]) ext]
            simp only [eseq_ok]
            rw [h2, intResult_ok]
    · rw [if_neg hb] at h
      simp at h

lemma containers_exact :
    ∀ fuel : Nat,
      (∀ (input : List Nat) (r : List Bval × List Nat),
          readList fuel input = .ok r →
          ∃ consumed, consumed ≠ [] ∧ input = consumed ++ r.2 ∧
            ∀ ext, readList fuel (consumed ++ ext) = .ok (r.1, ext)) ∧
      (∀ (acc : List Bval) (input : List Nat) (r : List Bval × List Nat),
          readListLoop fuel acc input = .ok r →
          ∃ consumed, consumed ≠ [] ∧ input = consumed ++ r.2 ∧
            ∀ ext, readListLoop fuel acc (consumed ++ ext) = .ok (r.1, ext)) ∧
      (∀ (input : List Nat) (r : List (List Nat × Bval) × List Nat),
          readDictionary fuel input = .ok r →
          ∃ consumed, consumed ≠ [] ∧ input = consumed ++ r.2 ∧
            ∀ ext, readDictionary fuel (consumed ++ ext) = .ok (r.1, ext)) ∧
      (∀ (acc : List (List Nat × Bval)) (input : List Nat)
          (r : List (List Nat × Bval) × List Nat),
          readDictLoop fuel acc input = .ok r →
          ∃ consumed, consumed ≠ [] ∧ input = consumed ++ r.2 ∧
            ∀ ext, readDictLoop fuel acc (consumed ++ ext) = .ok (r.1, ext)) := by
  intro fuel
  induction fuel with
  | zero =>
    refine ⟨fun input r h => ?_, fun acc input r h => ?_,
            fun input r h => ?_, fun acc input r h => ?_⟩
    · rw [readList_zero] at h
      simp at h
    · rw [readListLoop_zero] at h
      simp at h
    · rw [readDictionary_zero] at h
      simp at h
    · rw [readDictLoop_zero] at h
      simp at h
  | succ fuel ih =>
    obtain ⟨ihL, ihLL, ihD, ihDL⟩ := ih
    refine ⟨fun input r h => ?_, fun acc input r h => ?_,
            fun input r h => ?_, fun acc input r h => ?_⟩
    · cases input with
      | nil =>
        simp only [readList_succ, readByteIgnoreErr_nil] at h
        simp at h
      | cons b bs =>
        simp only [readList_succ, readByteIgnoreErr_cons] at h
        by_cases hb : b = 108
        · rw [if_pos hb] at h
          obtain ⟨c1, hc1ne, hc1eq, hc1ext⟩ := ihLL [] bs r h
          refine ⟨b :: c1, by simp, ?_, ?_⟩
          · rw [hc1eq]
            simp
          · intro ext
            simp only [List.cons_append]
            simp only [readList_succ, readByteIgnoreErr_cons]
            rw [if_pos hb]
            exact hc1ext ext
        · rw [if_neg hb] at h
          simp at h
    · cases input with
      | nil =>
        rw [readListLoop_nil] at h
        simp at h
      | cons b bs =>
        rw [readListLoop_cons] at h
        by_cases he : b = 101
        · rw [if_pos he] at h
          simp only [Except.ok.injEq] at h
          subst h
          refine ⟨[b], by simp, rfl, ?_⟩
          intro ext
          simp only [List.cons_append, List.nil_append]
          rw [readListLoop_cons, if_pos he]
        · rw [if_neg he] at h
          by_cases hl : b = 108
          · rw [if_pos hl] at h
            cases hcall : readList fuel (b :: bs) with
            | error e =>
              rw [hcall, eseq_error] at h
              simp at h
            | ok vr =>
              rw [hcall, eseq_ok] at h
              obtain ⟨c1, hc1ne, hc1eq, hc1ext⟩ := ihL (b :: bs) vr (by rw [hcall])
              obtain ⟨c2, hc2ne, hc2eq, hc2ext⟩ := ihLL (acc ++ [Bval.list vr.1]) vr.2 r h
              obtain ⟨b0, cs, rfl⟩ := List.exists_cons_of_ne_nil hc1ne
              simp only [List.cons_append] at hc1eq
              injection hc1eq with hb0 hbs
              subst hb0
              refine ⟨(b :: cs) ++ c2, by simp, ?_, ?_⟩
              · rw [List.append_assoc, ← hc2eq]
                simp [hbs]
              · intro ext
                rw [List.append_assoc]
                simp only [List.cons_append]
                rw [readListLoop_cons, if_neg he, if_pos hl]
                have hx := hc1ext (c2 ++ ext)
                simp only [List.cons_append] at hx
                rw [hx, eseq_ok]
                exact hc2ext ext
          · rw [if_neg hl] at h
            by_cases hd : b = 100
            · rw [if_pos hd] at h
              cases hcall : readDictionary fuel (b :: bs) with
              | error e =>
                rw [hcall, eseq_error] at h
                simp at h
              | ok vr =>
                rw [hcall, eseq_ok] at h
                obtain ⟨c1, hc1ne, hc1eq, hc1ext⟩ := ihD (b :: bs) vr (by rw [hcall])
                obtain ⟨c2, hc2ne, hc2eq, hc2ext⟩ := ihLL (acc ++ [Bval.dict vr.1]) vr.2 r h
                obtain ⟨b0, cs, rfl⟩ := List.exists_cons_of_ne_nil hc1ne
                simp only [List.cons_append] at hc1eq
                injection hc1eq with hb0 hbs
                subst hb0
                refine ⟨(b :: cs) ++ c2, by simp, ?_, ?_⟩
                · rw [List.append_assoc, ← hc2eq]
                  simp [hbs]
                · intro ext
                  rw [List.append_assoc]
                  simp only [List.cons_append]
                  rw [readListLoop_cons, if_neg he, if_neg hl, if_pos hd]
                  have hx := hc1ext (c2 ++ ext)
                  simp only [List.cons_append] at hx
                  rw [hx, eseq_ok]
                  exact hc2ext ext
            · rw [if_neg hd] at h
              by_cases hi : b = 105
              · rw [if_pos hi] at h
                cases hcall : readInt (b :: bs) with
                | error e =>
                  rw [hcall, eseq_error] at h
                  simp at h
                | ok vr =>
                  rw [hcall, eseq_ok] at h
                  obtain ⟨c1, hc1ne, hc1eq, hc1ext⟩ :=
                    readInt_exact (b :: bs) vr.1 vr.2 (by rw [hcall])
                  obtain ⟨c2, hc2ne, hc2eq, hc2ext⟩ := ihLL (acc ++ [Bval.int vr.1]) vr.2 r h
                  obtain ⟨b0, cs, rfl⟩ := List.exists_cons_of_ne_nil hc1ne
                  simp only [List.cons_append] at hc1eq
                  injection hc1eq with hb0 hbs
                  subst hb0
                  refine ⟨(b :: cs) ++ c2, by simp, ?_, ?_⟩
                  · rw [List.append_assoc, ← hc2eq]
                    simp [hbs]
                  · intro ext
                    rw [List.append_assoc]
                    simp only [List.cons_append]
                    rw [readListLoop_cons, if_neg he, if_neg hl, if_neg hd, if_pos hi]
                    have hx := hc1ext (c2 ++ ext)
                    simp only [List.cons_append] at hx
                    rw [hx, eseq_ok]
                    exact hc2ext ext
              · rw [if_neg hi] at h
                cases hcall : readString (b :: bs) with
                | error e =>
                  rw [hcall, eseq_error] at h
                  simp at h
                | ok vr =>
                  rw [hcall, eseq_ok] at h
                  obtain ⟨c1, hc1ne, hc1eq, hc1ext⟩ :=
                    readString_exact (b :: bs) vr.1 vr.2 (by rw [hcall])
                  obtain ⟨c2, hc2ne, hc2eq, hc2ext⟩ := ihLL (acc ++ [Bval.str vr.1]) vr.2 r h
                  obtain ⟨b0, cs, rfl⟩ := List.exists_cons_of_ne_nil hc1ne
                  simp only [List.cons_append] at hc1eq
                  injection hc1eq with hb0 hbs
                  subst hb0
                  refine ⟨(b :: cs) ++ c2, by simp, ?_, ?_⟩
                  · rw [List.append_assoc, ← hc2eq]
                    simp [hbs]
                  · intro ext
                    rw [List.append_assoc]
                    simp only [List.cons_append]
                    rw [readListLoop_cons, if_neg he, if_neg hl, if_neg hd, if_neg hi]
                    have hx := hc1ext (c2 ++ ext)
                    simp only [List.cons_append] at hx
                    rw [hx, eseq_ok]
                    exact hc2ext ext
    · cases input with
      | nil =>
        simp only [readDictionary_succ, readByteIgnoreErr_nil] at h
        simp at h
      | cons b bs =>
        simp only [readDictionary_succ, readByteIgnoreErr_cons] at h
        by_cases hb : b = 100
        · rw [if_pos hb] at h
          obtain ⟨c1, hc1ne, hc1eq, hc1ext⟩ := ihDL [] bs r h
          refine ⟨b :: c1, by simp, ?_, ?_⟩
          · rw [hc1eq]
            simp
          · intro ext
            simp only [List.cons_append]
            simp only [readDictionary_succ, readByteIgnoreErr_cons]
            rw [if_pos hb]
            exact hc1ext ext
        · rw [if_neg hb] at h
          simp at h
    · cases input with
      | nil =>
        rw [readDictLoop_nil] at h
        simp at h
      | cons b bs =>
        rw [readDictLoop_cons] at h
        by_cases he : b = 101
        · rw [if_pos he] at h
          simp only [Except.ok.injEq] at h
          subst h
          refine ⟨[b], by simp, rfl, ?_⟩
          intro ext
          simp only [List.cons_append, List.nil_append]
          rw [readDictLoop_cons, if_pos he]
        · rw [if_neg he] at h
          cases hk : readString (b :: bs) with
          | error e =>
            rw [hk, eseq_error] at h
            simp at h
          | ok kr =>
            rw [hk] at h
            simp only [eseq_ok] at h
            obtain ⟨ck, hckne, hckeq, hckext⟩ :=
              readString_exact (b :: bs) kr.1 kr.2 (by rw [hk])
            obtain ⟨b0, ckr, rfl⟩ := List.exists_cons_of_ne_nil hckne
            simp only [List.cons_append] at hckeq
            injection hckeq with hb0 hbs
            subst hb0
            cases hk2 : kr.2 with
            | nil =>
              rw [hk2, peek1_nil, eseq_error] at h
              simp at h
            | cons c rest2 =>
              rw [hk2] at h
              rw [peek1_cons] at h
              simp only [eseq_ok] at h
              by_cases hc : c = 100
              · rw [if_pos hc] at h
                cases hcall : readDictionary fuel kr.2 with
                | error e =>
                  rw [hk2] at hcall
                  rw [hcall, eseq_error] at h
                  simp at h
                | ok vr =>
                  rw [hk2] at hcall
                  rw [hcall, eseq_ok] at h
                  obtain ⟨cv, hcvne, hcveq, hcvext⟩ := ihD (c :: rest2) vr (by rw [hcall])
                  obtain ⟨cr, hcrne, hcreq, hcrext⟩ :=
                    ihDL (mapInsert kr.1 (Bval.dict vr.1) acc) vr.2 r h
                  obtain ⟨c0, cvr, rfl⟩ := List.exists_cons_of_ne_nil hcvne
                  simp only [List.cons_append] at hcveq
                  injection hcveq with hc0 hrest2
                  subst hc0
                  refine ⟨(b :: ckr) ++ ((c :: cvr) ++ cr), by simp, ?_, ?_⟩
                  · simp only [List.cons_append, List.append_assoc]
                    simp [hbs, hk2, hrest2, hcreq]
                  · intro ext
                    simp only [List.cons_append, List.append_assoc]
                    rw [readDictLoop_cons, if_neg he]
                    have hx := hckext (c :: (cvr ++ (cr ++ ext)))
                    simp only [List.cons_append] at hx
                    rw [hx]
                    simp only [eseq_ok]
                    rw [peek1_cons]
                    simp only [eseq_ok]
                    rw [if_pos hc]
                    have hy := hcvext (cr ++ ext)
                    simp only [List.cons_append] at hy
                    rw [hy]
                    simp only [eseq_ok]
                    exact hcrext ext
              · rw [if_neg hc] at h
                by_cases hi : c = 105
                · rw [if_pos hi] at h
                  cases hcall : readInt kr.2 with
                  | error e =>
                    rw [hk2] at hcall
                    rw [hcall, eseq_error] at h
                    simp at h
                  | ok vr =>
                    rw [hk2] at hcall
                    rw [hcall, eseq_ok] at h
                    obtain ⟨cv, hcvne, hcveq, hcvext⟩ :=
                      readInt_exact (c :: rest2) vr.1 vr.2 (by rw [hcall])
                    obtain ⟨cr, hcrne, hcreq, hcrext⟩ :=
                      ihDL (mapInsert kr.1 (Bval.int vr.1) acc) vr.2 r h
                    obtain ⟨c0, cvr, rfl⟩ := List.exists_cons_of_ne_nil hcvne
                    simp only [List.cons_append] at hcveq
                    injection hcveq with hc0 hrest2
                    subst hc0
                    refine ⟨(b :: ckr) ++ ((c :: cvr) ++ cr), by simp, ?_, ?_⟩
                    · simp only [List.cons_append, List.append_assoc]
                      simp [hbs, hk2, hrest2, hcreq]
                    · intro ext
                      simp only [List.cons_append, List.append_assoc]
                      rw [readDictLoop_cons, if_neg he]
                      have hx := hckext (c :: (cvr ++ (cr ++ ext)))
                      simp only [List.cons_append] at hx
                      rw [hx]
                      simp only [eseq_ok]
                      rw [peek1_cons]
                      simp only [eseq_ok]
                      rw [if_neg hc, if_pos hi]
                      have hy := hcvext (cr ++ ext)
                      simp only [List.cons_append] at hy
                      rw [hy]
                      simp only [eseq_ok]
                      exact hcrext ext
                · rw [if_neg hi] at h
                  by_cases hl : c = 108
                  · rw [if_pos hl] at h
                    cases hcall : readList fuel kr.2 with
                    | error e =>
                      rw [hk2] at hcall
                      rw [hcall, eseq_error] at h
                      simp at h
                    | ok vr =>
                      rw [hk2] at hcall
                      rw [hcall, eseq_ok] at h
                      obtain ⟨cv, hcvne, hcveq, hcvext⟩ := ihL (c :: rest2) vr (by rw [hcall])
                      obtain ⟨cr, hcrne, hcreq, hcrext⟩ :=
                        ihDL (mapInsert kr.1 (Bval.list vr.1) acc) vr.2 r h
                      obtain ⟨c0, cvr, rfl⟩ := List.exists_cons_of_ne_nil hcvne
                      simp only [List.cons_append] at hcveq
                      injection hcveq with hc0 hrest2
                      subst hc0
                      refine ⟨(b :: ckr) ++ ((c :: cvr) ++ cr), by simp, ?_, ?_⟩
                      · simp only [List.cons_append, List.append_assoc]
                        simp [hbs, hk2, hrest2, hcreq]
                      · intro ext
                        simp only [List.cons_append, List.append_assoc]
                        rw [readDictLoop_cons, if_neg he]
                        have hx := hckext (c :: (cvr ++ (cr ++ ext)))
                        simp only [List.cons_append] at hx
                        rw [hx]
                        simp only [eseq_ok]
                        rw [peek1_cons]
                        simp only [eseq_ok]
                        rw [if_neg hc, if_neg hi, if_pos hl]
                        have hy := hcvext (cr ++ ext)
                        simp only [List.cons_append] at hy
                        rw [hy]
                        simp only [eseq_ok]
                        exact hcrext ext
                  · rw [if_neg hl] at h
                    cases hcall : readString kr.2 with
                    | error e =>
                      rw [hk2] at hcall
                      rw [hcall, eseq_error] at h
                      simp at h
                    | ok vr =>
                      rw [hk2] at hcall
                      rw [hcall, eseq_ok] at h
                      obtain ⟨cv, hcvne, hcveq, hcvext⟩ :=
                        readString_exact (c :: rest2) vr.1 vr.2 (by rw [hcall])
                      obtain ⟨cr, hcrne, hcreq, hcrext⟩ :=
                        ihDL (mapInsert kr.1 (Bval.str vr.1) acc) vr.2 r h
                      obtain ⟨c0, cvr, rfl⟩ := List.exists_cons_of_ne_nil hcvne
                      simp only [List.cons_append] at hcveq
                      injection hcveq with hc0 hrest2
                      subst hc0
                      refine ⟨(b :: ckr) ++ ((c :: cvr) ++ cr), by simp, ?_, ?_⟩
                      · simp only [List.cons_append, List.append_assoc]
                        simp [hbs, hk2, hrest2, hcreq]
                      · intro ext
                        simp only [List.cons_append, List.append_assoc]
                        rw [readDictLoop_cons, if_neg he]
                        have hx := hckext (c :: (cvr ++ (cr ++ ext)))
                        simp only [List.cons_append] at hx
                        rw [hx]
                        simp only [eseq_ok]
                        rw [peek1_cons]
                        simp only [eseq_ok]
                        rw [if_neg hc, if_neg hi, if_neg hl]
                        have hy := hcvext (cr ++ ext)
                        simp only [List.cons_append] at hy
                        rw [hy]
                        simp only [eseq_ok]
                        exact hcrext ext

/-- Claim C8: on success each of the four readers consumes exactly the
bytes of the one value it decoded and leaves the source positioned
immediately after that value: the input splits as a nonempty consumed
prefix followed by the returned rest, and reading that same prefix
followed by ANY other bytes yields the same value and leaves exactly
those bytes — so the reader neither reads past the value's end nor stops
short of it; in particular `ReadString` on `1:ab` returns `a` and leaves
`b` unconsumed, and `ReadInt` on `i1ee` returns `1` and leaves the
trailing `e` unconsumed. -/
theorem readers_frame :
    (∀ input s rest, readString input = .ok (s, rest) →
        ∃ consumed, consumed ≠ [] ∧ input = consumed ++ rest ∧
          ∀ ext, readString (consumed ++ ext) = .ok (s, ext)) ∧
    (∀ input i rest, readInt input = .ok (i, rest) →
        ∃ consumed, consumed ≠ [] ∧ input = consumed ++ rest ∧
          ∀ ext, readInt (consumed ++ ext) = .ok (i, ext)) ∧
    (∀ fuel input l rest, readList fuel input = .ok (l, rest) →
        ∃ consumed, consumed ≠ [] ∧ input = consumed ++ rest ∧
          ∀ ext, readList fuel (consumed ++ ext) = .ok (l, ext)) ∧
    (∀ fuel input d rest, readDictionary fuel input = .ok (d, rest) →
        ∃ consumed, consumed ≠ [] ∧ input = consumed ++ rest ∧
          ∀ ext, readDictionary fuel (consumed ++ ext) = .ok (d, ext)) ∧
    readString [49, 58, 97, 98] = .ok ([97], [98]) ∧
    readInt [105, 49, 101, 101] = .ok (1, [101]) := by
  refine ⟨readString_exact, readInt_exact, ?_, ?_, rfl, rfl⟩
  · intro fuel input l rest h
    exact (containers_exact fuel).1 input (l, rest) h
  · intro fuel input d rest h
    exact (containers_exact fuel).2.2.1 input (d, rest) h

/-- Claim C8 witness: the list read of `li0ee` followed by a stray `a`
decodes to the one-element list and stops right after the closing `e`;
the frame theorem exhibits the consumed prefix and its exactness. -/
theorem readers_frame_witness :
    ∃ consumed, consumed ≠ ([] : List Nat) ∧
      [108, 105, 48, 101, 101, 97] = consumed ++ [97] ∧
      ∀ ext, readList 5 (consumed ++ ext) = .ok ([Bval.int 0], ext) :=
  readers_frame.2.2.1 5 [108, 105, 48, 101, 101, 97] [Bval.int 0] [97] rfl

/-!
Error propagation in the two container loops: a failing nested read makes
the whole loop fail with the very same error, and an error result never
depends on the partial container accumulated so far.
-/

lemma listLoop_propagates (fuel : Nat) (b : Nat) (rest : List Nat) (e : Err)
    (acc : List Bval) (hne : b ≠ 101)
    (hf : if b = 108 then readList fuel (b :: rest) = .error e
          else if b = 100 then readDictionary fuel (b :: rest) = .error e
          else if b = 105 then readInt (b :: rest) = .error e
          else readString (b :: rest) = .error e) :
    readListLoop (fuel + 1) acc (b :: rest) = .error e := by
  rw [readListLoop_cons, if_neg hne]
  by_cases hl : b = 108
  · rw [if_pos hl] at hf
    rw [if_pos hl, hf, eseq_error]
  · rw [if_neg hl] at hf
    rw [if_neg hl]
    by_cases hd : b = 100
    · rw [if_pos hd] at hf
      rw [if_pos hd, hf, eseq_error]
    · rw [if_neg hd] at hf
      rw [if_neg hd]
      by_cases hi : b = 105
      · rw [if_pos hi] at hf
        rw [if_pos hi, hf, eseq_error]
      · rw [if_neg hi] at hf
        rw [if_neg hi, hf, eseq_error]

lemma dictLoop_key_propagates (fuel : Nat) (b : Nat) (rest : List Nat) (e : Err)
    (acc : List (List Nat × Bval)) (hne : b ≠ 101)
    (hf : readString (b :: rest) = .error e) :
    readDictLoop (fuel + 1) acc (b :: rest) = .error e := by
  rw [readDictLoop_cons, if_neg hne, hf, eseq_error]

lemma dictLoop_value_propagates (fuel : Nat) (b : Nat) (rest : List Nat) (e : Err)
    (acc : List (List Nat × Bval)) (k : List Nat) (c : Nat) (rest2 : List Nat)
    (hne : b ≠ 101) (hstr : readString (b :: rest) = .ok (k, c :: rest2))
    (hf : if c = 100 then readDictionary fuel (c :: rest2) = .error e
          else if c = 105 then readInt (c :: rest2) = .error e
          else if c = 108 then readList fuel (c :: rest2) = .error e
          else readString (c :: rest2) = .error e) :
    readDictLoop (fuel + 1) acc (b :: rest) = .error e := by
  rw [readDictLoop_cons, if_neg hne, hstr]
  simp only [eseq_ok, peek1_cons]
  by_cases hd : c = 100
  · rw [if_pos hd] at hf
    rw [if_pos hd, hf, eseq_error]
  · rw [if_neg hd] at hf
    rw [if_neg hd]
    by_cases hi : c = 105
    · rw [if_pos hi] at hf
      rw [if_pos hi, hf, eseq_error]
    · rw [if_neg hi] at hf
      rw [if_neg hi]
      by_cases hl : c = 108
      · rw [if_pos hl] at hf
        rw [if_pos hl, hf, eseq_error]
      · rw [if_neg hl] at hf
        rw [if_neg hl, hf, eseq_error]

lemma readListLoop_error_anyacc :
    ∀ (fuel : Nat) (input : List Nat) (e : Err) (acc acc2 : List Bval),
      readListLoop fuel acc input = .error e →
      readListLoop fuel acc2 input = .error e := by
  intro fuel
  induction fuel with
  | zero =>
    intro input e acc acc2 h
    rw [readListLoop_zero] at h
    rw [readListLoop_zero]
    exact h
  | succ fuel ih =>
    intro input e acc acc2 h
    cases input with
    | nil =>
      rw [readListLoop_nil] at h
      rw [readListLoop_nil]
      exact h
    | cons b bs =>
      rw [readListLoop_cons] at h
      rw [readListLoop_cons]
      by_cases he : b = 101
      · rw [if_pos he] at h
        simp at h
      · rw [if_neg he] at h
        rw [if_neg he]
        by_cases hl : b = 108
        · rw [if_pos hl] at h
          rw [if_pos hl]
          cases hcall : readList fuel (b :: bs) with
          | error e2 =>
            rw [hcall, eseq_error] at h
            rw [eseq_error]
            exact h
          | ok vr =>
            rw [hcall, eseq_ok] at h
            rw [eseq_ok]
            exact ih vr.2 e _ _ h
        · rw [if_neg hl] at h
          rw [if_neg hl]
          by_cases hd : b = 100
          · rw [if_pos hd] at h
            rw [if_pos hd]
            cases hcall : readDictionary fuel (b :: bs) with
            | error e2 =>
              rw [hcall, eseq_error] at h
              rw [eseq_error]
              exact h
            | ok vr =>
              rw [hcall, eseq_ok] at h
              rw [eseq_ok]
              exact ih vr.2 e _ _ h
          · rw [if_neg hd] at h
            rw [if_neg hd]
            by_cases hi : b = 105
            · rw [if_pos hi] at h
              rw [if_pos hi]
              cases hcall : readInt (b :: bs) with
              | error e2 =>
                rw [hcall, eseq_error] at h
                rw [eseq_error]
                exact h
              | ok vr =>
                rw [hcall, eseq_ok] at h
                rw [eseq_ok]
                exact ih vr.2 e _ _ h
            · rw [if_neg hi] at h
              rw [if_neg hi]
              cases hcall : readString (b :: bs) with
              | error e2 =>
                rw [hcall, eseq_error] at h
                rw [eseq_error]
                exact h
              | ok vr =>
                rw [hcall, eseq_ok] at h
                rw [eseq_ok]
                exact ih vr.2 e _ _ h

lemma readDictLoop_error_anyacc :
    ∀ (fuel : Nat) (input : List Nat) (e : Err)
      (acc acc2 : List (List Nat × Bval)),
      readDictLoop fuel acc input = .error e →
      readDictLoop fuel acc2 input = .error e := by
  intro fuel
  induction fuel with
  | zero =>
    intro input e acc acc2 h
    rw [readDictLoop_zero] at h
    rw [readDictLoop_zero]
    exact h
  | succ fuel ih =>
    intro input e acc acc2 h
    cases input with
    | nil =>
      rw [readDictLoop_nil] at h
      rw [readDictLoop_nil]
      exact h
    | cons b bs =>
      rw [readDictLoop_cons] at h
      rw [readDictLoop_cons]
      by_cases he : b = 101
      · rw [if_pos he] at h
        simp at h
      · rw [if_neg he] at h
        rw [if_neg he]
        cases hk : readString (b :: bs) with
        | error e2 =>
          rw [hk, eseq_error] at h
          rw [eseq_error]
          exact h
        | ok kr =>
          rw [hk] at h
          simp only [eseq_ok] at h ⊢
          cases hk2 : kr.2 with
          | nil =>
            rw [hk2] at h
            rw [peek1_nil, eseq_error] at h ⊢
            exact h
          | cons c rest2 =>
            rw [hk2] at h
            rw [peek1_cons] at h ⊢
            simp only [eseq_ok] at h ⊢
            by_cases hd : c = 100
            · rw [if_pos hd] at h
              rw [if_pos hd]
              cases hcall : readDictionary fuel (c :: rest2) with
              | error e2 =>
                rw [hcall, eseq_error] at h
                rw [eseq_error]
                exact h
              | ok vr =>
                rw [hcall, eseq_ok] at h
                rw [eseq_ok]
                exact ih vr.2 e _ _ h
            · rw [if_neg hd] at h
              rw [if_neg hd]
              by_cases hi : c = 105
              · rw [if_pos hi] at h
                rw [if_pos hi]
                cases hcall : readInt (c :: rest2) with
                | error e2 =>
                  rw [hcall, eseq_error] at h
                  rw [eseq_error]
                  exact h
                | ok vr =>
                  rw [hcall, eseq_ok] at h
                  rw [eseq_ok]
                  exact ih vr.2 e _ _ h
              · rw [if_neg hi] at h
                rw [if_neg hi]
                by_cases hl : c = 108
                · rw [if_pos hl] at h
                  rw [if_pos hl]
                  cases hcall : readList fuel (c :: rest2) with
                  | error e2 =>
                    rw [hcall, eseq_error] at h
                    rw [eseq_error]
                    exact h
                  | ok vr =>
                    rw [hcall, eseq_ok] at h
                    rw [eseq_ok]
                    exact ih vr.2 e _ _ h
                · rw [if_neg hl] at h
                  rw [if_neg hl]
                  cases hcall : readString (c :: rest2) with
                  | error e2 =>
                    rw [hcall, eseq_error] at h
                    rw [eseq_error]
                    exact h
                  | ok vr =>
                    rw [hcall, eseq_ok] at h
                    rw [eseq_ok]
                    exact ih vr.2 e _ _ h

/-- Claim C9: a failing nested read inside the list or dictionary loop
makes the container reader return that same error — for the list loop
whichever reader the dispatch byte selects, and for the dictionary loop
both a failing key read and a failing value read — and an error result of
either loop never depends on the accumulated partial container, which is
therefore discarded and never returned (the loops return only the error). -/
theorem container_error_propagation :
    (∀ (fuel : Nat) (b : Nat) (rest : List Nat) (e : Err) (acc : List Bval),
        b ≠ 101 →
        (if b = 108 then readList fuel (b :: rest) = .error e
         else if b = 100 then readDictionary fuel (b :: rest) = .error e
         else if b = 105 then readInt (b :: rest) = .error e
         else readString (b :: rest) = .error e) →
        readListLoop (fuel + 1) acc (b :: rest) = .error e) ∧
    (∀ (fuel : Nat) (b : Nat) (rest : List Nat) (e : Err)
        (acc : List (List Nat × Bval)),
        b ≠ 101 → readString (b :: rest) = .error e →
        readDictLoop (fuel + 1) acc (b :: rest) = .error e) ∧
    (∀ (fuel : Nat) (b : Nat) (rest : List Nat) (e : Err)
        (acc : List (List Nat × Bval)) (k : List Nat) (c : Nat) (rest2 : List Nat),
        b ≠ 101 → readString (b :: rest) = .ok (k, c :: rest2) →
        (if c = 100 then readDictionary fuel (c :: rest2) = .error e
         else if c = 105 then readInt (c :: rest2) = .error e
         else if c = 108 then readList fuel (c :: rest2) = .error e
         else readString (c :: rest2) = .error e) →
        readDictLoop (fuel + 1) acc (b :: rest) = .error e) ∧
    (∀ (fuel : Nat) (input : List Nat) (e : Err) (acc acc2 : List Bval),
        readListLoop fuel acc input = .error e →
        readListLoop fuel acc2 input = .error e) ∧
    (∀ (fuel : Nat) (input : List Nat) (e : Err)
        (acc acc2 : List (List Nat × Bval)),
        readDictLoop fuel acc input = .error e →
        readDictLoop fuel acc2 input = .error e) :=
  ⟨listLoop_propagates, dictLoop_key_propagates, dictLoop_value_propagates,
   readListLoop_error_anyacc, readDictLoop_error_anyacc⟩

/-- Claim C9 witness: inside a list whose accumulated prefix already holds
the value 3, the truncated nested integer `i0` fails with `eof`, and the
loop returns exactly that error, discarding the accumulator. -/
theorem container_error_propagation_witness :
    readListLoop 6 [Bval.int 3] [105, 48] = .error .eof :=
  container_error_propagation.1 5 105 [48] .eof [Bval.int 3] (by decide) rfl

/-- Claim C6: for every non-negative length `n` (within the range of the
64-bit `int` that holds lengths in the code) and every byte sequence `b`
of length `n`, `ReadString` on the decimal digits of `n`, a `:`, and then
`b` succeeds and returns exactly `b`, consuming the whole encoding; the
case `n = 0` yields the empty byte string. -/
theorem readString_decodes (n : Nat) (b : List Nat) (h1 : n < 2 ^ 63)
    (h2 : b.length = n) :
    readString (natToDec n ++ 58 :: b) = .ok (b, []) := by
  subst h2
  have h58 : (58 : Nat) ∉ natToDec b.length := fun hm => by
    have := natToDec_digits b.length 58 hm
    omega
  simp only [readString]
  rw [readBytesUntil_found (natToDec b.length) 58 b h58]
  simp only [eseq_ok, List.dropLast_concat, Atoi_natToDec b.length h1]
  rw [if_neg (by omega)]
  rw [show ((b.length : Int)).toNat = b.length by omega]
  rw [readNBytes_exact b.length b (by omega)]
  simp

/-- Claim C6 witness: `0:` decodes to the empty string and `2:ab` to `ab`,
by the general theorem at `n = 0` and `n = 2`. -/
theorem readString_decodes_witness :
    readString [48, 58] = .ok ([], []) ∧
    readString [50, 58, 97, 98] = .ok ([97, 98], []) :=
  ⟨readString_decodes 0 [] (by decide) rfl,
   readString_decodes 2 [97, 98] (by decide) rfl⟩

/-- Claim C5: when end-of-input hits while `ReadString` reads the payload
after a well-formed `<length>:` prefix (the payload `b` is shorter than
the declared length `n`), the error is the raw `eof`, not
`ErrStringInvalid` — the payload side of the decoder's asymmetric error
policy. -/
theorem readString_payload_eof (n : Nat) (b : List Nat) (h1 : n < 2 ^ 63)
    (h2 : b.length < n) :
    readString (natToDec n ++ 58 :: b) = .error .eof := by
  have h58 : (58 : Nat) ∉ natToDec n := fun hm => by
    have := natToDec_digits n 58 hm
    omega
  simp only [readString]
  rw [readBytesUntil_found (natToDec n) 58 b h58]
  simp only [eseq_ok, List.dropLast_concat, Atoi_natToDec n h1]
  rw [if_neg (by omega)]
  rw [show ((n : Int)).toNat = n by omega]
  rw [readNBytes_short n b h2]

/-- Claim C5 witness: the spec's example `5:a` fails with raw `eof`, by
the general theorem at `n = 5`, `b = a`. -/
theorem readString_payload_eof_witness :
    readString [53, 58, 97] = .error .eof :=
  readString_payload_eof 5 [97] (by decide) (by decide)

/-- Claim C7: `ReadInt` decodes `i<i>e` to `i` for every integer `i` of
the code's 64-bit `int` type (positive, negative, or zero), and leading
zeros are accepted and normalised to the numeric value, so every
zero-padded digit span `0^k <digits of n>` also decodes to `n` — in
particular `i0e` and `i000e` decode to `0`. -/
theorem readInt_decodes :
    (∀ i : Int, -(2 ^ 63) ≤ i → i < 2 ^ 63 →
        readInt (105 :: (intToDec i ++ [101])) = .ok (i, [])) ∧
    (∀ k n : Nat, n < 2 ^ 63 →
        readInt (105 :: ((List.replicate k 48 ++ natToDec n) ++ [101])) =
          .ok ((n : Int), [])) := by
  constructor
  · intro i hl hr
    have h101 : (101 : Nat) ∉ intToDec i := by
      intro hm
      unfold intToDec at hm
      by_cases hneg : i < 0
      · rw [if_pos hneg] at hm
        rcases List.mem_cons.mp hm with h | h
        · omega
        · have := natToDec_digits _ _ h
          omega
      · rw [if_neg hneg] at hm
        have := natToDec_digits _ _ hm
        omega
    rw [readInt_eq]
    rw [if_pos rfl, readBytesUntil_found (intToDec i) 101 [] h101]
    simp only [eseq_ok, List.dropLast_concat, Atoi_intToDec i hl hr, intResult_ok]
  · intro k n hn
    have h101 : (101 : Nat) ∉ List.replicate k 48 ++ natToDec n := by
      intro hm
      rcases List.mem_append.mp hm with h | h
      · have := List.eq_of_mem_replicate h
        omega
      · have := natToDec_digits _ _ h
        omega
    rw [readInt_eq]
    rw [if_pos rfl, readBytesUntil_found _ 101 [] h101]
    simp only [eseq_ok, List.dropLast_concat, Atoi_padded k n hn, intResult_ok]

/-- Claim C7 witness: `i-7e` decodes to `-7` and `i000e` decodes to `0`,
by the general theorem. -/
theorem readInt_decodes_witness :
    readInt [105, 45, 55, 101] = .ok (-7, []) ∧
    readInt [105, 48, 48, 48, 101] = .ok (0, []) := by
  constructor
  · have h := readInt_decodes.1 (-7) (by decide) (by decide)
    have e : 105 :: (intToDec (-7) ++ [101]) = [105, 45, 55, 101] := by decide
    rw [e] at h
    exact h
  · have h := readInt_decodes.2 2 0 (by decide)
    have e : 105 :: ((List.replicate 2 48 ++ natToDec 0) ++ [101]) =
        [105, 48, 48, 48, 101] := by decide
    rw [e] at h
    exact h

/-!
Concrete behaviour of the decoder on the inputs the claims single out.
Byte values: `i` = 105, `e` = 101, `l` = 108, `d` = 100, `:` = 58,
`+` = 43, `-` = 45, digits 48–57, `a` = 97, `b` = 98.
-/

/-- Claim C1 (code behaviour at the failing inputs): when the byte source
hits end-of-input while `ReadInt` scans for the terminating `e`, the code
returns the raw `io.EOF` from `ReadBytes` rather than `ErrIntInvalid`:
the input `i0` fails with `eof`, and `li0` read as a list also fails with
`eof` (the list layer propagates the nested error unchanged). -/
theorem readInt_truncated_raw_eof :
    readInt [105, 48] = .error .eof ∧
    readList 5 [108, 105, 48] = .error .eof :=
  ⟨rfl, rfl⟩

/-- Claim C2 (code behaviour at the failing inputs): a length prefix that
never reaches `:` (`aaaa`) fails with the raw `eof` from `ReadBytes`, a
non-numeric prefix (`:aaaa`, whose digit span is empty) fails with the raw
`strconv` syntax error, and only the negative length (`-5:aaaaa`) fails
with `ErrStringInvalid`. -/
theorem readString_bad_prefix_errs :
    readString [97, 97, 97, 97] = .error .eof ∧
    readString [58, 97, 97, 97, 97] = .error .strconvMalformed ∧
    readString [45, 53, 58, 97, 97, 97, 97, 97] = .error .errStringInvalid :=
  ⟨rfl, rfl, rfl⟩

/-- Claim C3 (code behaviour at the failing input): on `ld`, the
dictionary loop's first `Peek(1)` fails with `io.EOF` but its error is
never checked, so the unconditional `next[0]` panics on the empty slice;
the same happens for a bare `d`. -/
theorem readDict_peek_panics :
    readList 5 [108, 100] = .error .panicIndexOutOfRange ∧
    readDictionary 5 [100] = .error .panicIndexOutOfRange :=
  ⟨rfl, rfl⟩

/-- Claim C4 (code behaviour at the failing input): on `di1e1:ae`, the key
read hands `i1e1:` to `Atoi`, whose syntax error is returned raw by
`ReadString` and propagated raw by `ReadDictionary` — the result is the
`strconv` syntax error, not `ErrStringInvalid`. -/
theorem readDict_int_key_strconv :
    readDictionary 8 [100, 105, 49, 101, 49, 58, 97, 101] = .error .strconvMalformed :=
  rfl

/-- Claim C10: the base-10 parse used by both readers accepts an explicit
leading `+` that the bencode grammar does not allow: `i+5e` decodes to the
integer 5 and `+1:a` decodes to the string `a`, both consuming their whole
input. -/
theorem plus_sign_accepted :
    readInt [105, 43, 53, 101] = .ok (5, []) ∧
    readString [43, 49, 58, 97] = .ok ([97], []) :=
  ⟨rfl, rfl⟩

end Bencode
